import Mathlib

/-!
Verification development for the `yt` hierarchical configuration store
(`yt/config.py` and the configuration tree it is built on).

The configuration tree itself (`ConfigNode` / `ConfigLeaf` in
`yt/utilities/configuration_tree.py`) is not part of the sources at hand:
only its caller `yt/config.py` is.  Following the specification, the tree is
modelled here as a closed sum type with exactly two cases (Node and Leaf),
children being an insertion-ordered association list from string segments to
subtrees, mirroring a Python `dict`.
-/

set_option autoImplicit false

/-- Leaf values: opaque scalars accepted verbatim (ints, strings, booleans,
and Python's `None`, which can be passed e.g. as an explicit fallback). -/
inductive Value where
  | vint : Int → Value
  | vstr : String → Value
  | vbool : Bool → Value
  | vnone : Value
deriving DecidableEq

/-- Provenance metadata: a mapping of provenance facts (e.g. a `source` tag),
modelled as an association list. -/
abbrev Metadata := List (String × String)

/-- Error kinds of the core, per the specification's §7: `NotFound`
(Python-side `KeyError`), `AlreadyExists`, and `TypeConflict`. -/
inductive ConfigError where
  | notFound : ConfigError
  | alreadyExists : ConfigError
  | typeConflict : ConfigError
deriving DecidableEq

/-- A nested mapping, as fed to `Merge`/`update` (a parsed TOML table):
each key maps to either a scalar value or a nested table. -/
inductive MVal where
  | scalar : Value → MVal
  | table : List (String × MVal) → MVal

/-- Modelled from the spec: the configuration tree of
`yt/utilities/configuration_tree.py` (`ConfigNode`/`ConfigLeaf`), as the
tagged variant mandated by §9: a Leaf holds one value plus metadata and has
no children; a Node holds only an order-irrelevant mapping from string
segment to child. -/
inductive ConfigTree where
  | leaf (value : Value) (meta : Metadata)
  | node (children : List (String × ConfigTree))

/-- Lookup in a child mapping (Python `dict` access): the value at the first
occurrence of the key, if any. -/
def getVal {α : Type} (k : String) : List (String × α) → Option α
  | [] => none
  | (k', v) :: rest => if k = k' then some v else getVal k rest

/-- Assignment in a child mapping (Python `dict` assignment): replace the
value at an existing key in place, otherwise append the new binding. -/
def setVal {α : Type} (k : String) (v : α) : List (String × α) → List (String × α)
  | [] => [(k, v)]
  | (k', v') :: rest => if k = k' then (k, v) :: rest else (k', v') :: setVal k v rest

/-- Deletion in a child mapping (Python `dict` deletion): drop the bindings
of the key. -/
def delVal {α : Type} (k : String) (l : List (String × α)) : List (String × α) :=
  l.filter (fun p => p.1 ≠ k)

/-- Modelled from the spec: `Navigate(path)` (§4.1) starting at a given
tree: consume path segments one at a time, descending into the child named
by each segment; `none` (NotFound) if a segment does not exist as a child or
an intermediate segment names a Leaf; a zero-length path returns the
starting point itself. -/
def navigate : ConfigTree → List String → Option ConfigTree
  | t, [] => some t
  | ConfigTree.leaf _ _, _ :: _ => none
  | ConfigTree.node cs, k :: rest =>
    match getVal k cs with
    | none => none
    | some c => navigate c rest

/-- The children of an optional tree: those of a Node, and empty for an
absent child or a Leaf (whose slot a merge of a nested table replaces by a
fresh Node, per the destructive slot-kind replacement of §3). -/
def childrenOrEmpty : Option ConfigTree → List (String × ConfigTree)
  | some (ConfigTree.node cs) => cs
  | _ => []

/-- Modelled from the spec: `Merge(mapping, metadata)` (§4.1) on a Node's
children (`ConfigNode.update`): for each key in the mapping in order, a
nested table recurses into the Node named by that key (creating it if
absent), and a scalar upserts a Leaf with the supplied metadata. -/
def mergeList : List (String × ConfigTree) → List (String × MVal) → Metadata →
    List (String × ConfigTree)
  | cs, [], _ => cs
  | cs, (k, MVal.scalar v) :: rest, meta =>
    mergeList (setVal k (ConfigTree.leaf v meta) cs) rest meta
  | cs, (k, MVal.table t) :: rest, meta =>
    mergeList
      (setVal k (ConfigTree.node (mergeList (childrenOrEmpty (getVal k cs)) t meta)) cs)
      rest meta
termination_by _ m _ => sizeOf m
decreasing_by
  all_goals simp_wf
  all_goals omega

/-- Modelled from the spec: `GetDeepestLeaf(path)` (§4.1,
`ConfigNode.get_deepest_leaf`): navigate the full path; if that yields a
Leaf return it; otherwise retry with the path shortened by removing the last
segment, until a Leaf is found or the path is empty. -/
def getDeepestLeaf (t : ConfigTree) (path : List String) : Option (Value × Metadata) :=
  match navigate t path with
  | some (ConfigTree.leaf v m) => some (v, m)
  | _ =>
    if h : path = [] then none
    else getDeepestLeaf t path.dropLast
termination_by path.length
decreasing_by
  simp_wf
  have hlen : 0 < path.length := List.length_pos.mpr h
  simp [List.length_dropLast]
  omega

/-- The Leaf (value and metadata) sitting exactly at a path, if any. -/
def leafAt (t : ConfigTree) (p : List String) : Option (Value × Metadata) :=
  match navigate t p with
  | some (ConfigTree.leaf v m) => some (v, m)
  | _ => none

/-- Specification-side restatement of most-specific resolution: among the
prefixes of the path, tried longest first, the first one carrying a Leaf. -/
def deepestBySearch (t : ConfigTree) (path : List String) : Option (Value × Metadata) :=
  ((List.range (path.length + 1)).reverse).findSome? (fun k => leafAt t (path.take k))

/-- Modelled from the spec: `Upsert(path, value, metadata)` (§4.1,
`ConfigNode.upsert_from_list`) on a Node's children: walk the non-empty
path, creating Nodes at missing segments; a non-final segment naming an
existing Leaf fails `TypeConflict` (a Leaf cannot have children); at the
final segment a Leaf with the value and metadata is set, overwriting
whatever kind is there. -/
def upsertList : List (String × ConfigTree) → List String → Value → Metadata →
    Except ConfigError (List (String × ConfigTree))
  | _, [], _, _ => Except.error ConfigError.notFound
  | cs, [k], v, meta => Except.ok (setVal k (ConfigTree.leaf v meta) cs)
  | cs, k :: rest, v, meta =>
    match getVal k cs with
    | some (ConfigTree.leaf _ _) => Except.error ConfigError.typeConflict
    | some (ConfigTree.node cs') =>
      (upsertList cs' rest v meta).map (fun cs₂ => setVal k (ConfigTree.node cs₂) cs)
    | none =>
      (upsertList [] rest v meta).map (fun cs₂ => setVal k (ConfigTree.node cs₂) cs)

/-- Modelled from the spec: `Remove(path)` (§4.1, `ConfigNode.pop_leaf`) on
a Node's children: remove the Leaf or Node (with its subtree) at the path
from its parent's children; fails `NotFound` when the path does not resolve
to an existing child. -/
def popList : List (String × ConfigTree) → List String →
    Except ConfigError (List (String × ConfigTree))
  | _, [] => Except.error ConfigError.notFound
  | cs, [k] =>
    match getVal k cs with
    | some _ => Except.ok (delVal k cs)
    | none => Except.error ConfigError.notFound
  | cs, k :: rest =>
    match getVal k cs with
    | some (ConfigTree.node cs') =>
      (popList cs' rest).map (fun cs₂ => setVal k (ConfigTree.node cs₂) cs)
    | some (ConfigTree.leaf _ _) => Except.error ConfigError.notFound
    | none => Except.error ConfigError.notFound

mutual
/-- Modelled from the spec: `Export()` (§4.1, `as_dict`) of a single tree:
a Leaf becomes its bare value (metadata dropped), a Node a table keyed by
child name. -/
def exportTree : ConfigTree → MVal
  | ConfigTree.leaf v _ => MVal.scalar v
  | ConfigTree.node cs => MVal.table (exportList cs)

/-- Modelled from the spec: `Export()` (§4.1, `as_dict`) of a Node's
children. -/
def exportList : List (String × ConfigTree) → List (String × MVal)
  | [] => []
  | (k, c) :: rest => (k, exportTree c) :: exportList rest
end

mutual
/-- Replace the metadata of every Leaf of a tree by a single record. -/
def retagTree (meta : Metadata) : ConfigTree → ConfigTree
  | ConfigTree.leaf v _ => ConfigTree.leaf v meta
  | ConfigTree.node cs => ConfigTree.node (retagList meta cs)

/-- Replace the metadata of every Leaf below a children list. -/
def retagList (meta : Metadata) : List (String × ConfigTree) → List (String × ConfigTree)
  | [] => []
  | (k, c) :: rest => (k, retagTree meta c) :: retagList meta rest
end

/-- The set of (path, value) pairs of the Leaves below a children list. -/
def leafPairsList : List (String × ConfigTree) → List (List String × Value)
  | [] => []
  | (k, ConfigTree.leaf v _) :: rest => ([k], v) :: leafPairsList rest
  | (k, ConfigTree.node cs) :: rest =>
    (leafPairsList cs).map (fun p => (k :: p.1, p.2)) ++ leafPairsList rest
termination_by cs => sizeOf cs
decreasing_by
  all_goals simp_wf
  all_goals omega

mutual
/-- Well-formedness of a tree as produced by Python dictionaries: every
children list binds each key at most once. -/
def ctreeWF : ConfigTree → Bool
  | ConfigTree.leaf _ _ => true
  | ConfigTree.node cs => cnodeWF cs

/-- Well-formedness of a children list: keys are distinct at this level and
every child is well-formed. -/
def cnodeWF : List (String × ConfigTree) → Bool
  | [] => true
  | (k, c) :: rest => rest.all (fun p => p.1 ≠ k) && ctreeWF c && cnodeWF rest
end

mutual
/-- Well-formedness of a nested mapping as produced by a Python dictionary:
every table binds each key at most once. -/
def mvalWF : MVal → Bool
  | MVal.scalar _ => true
  | MVal.table m => mtableWF m

/-- Well-formedness of a table: keys are distinct at this level and every
entry is well-formed. -/
def mtableWF : List (String × MVal) → Bool
  | [] => true
  | (k, v) :: rest => rest.all (fun p => p.1 ≠ k) && mvalWF v && mtableWF rest
end

/-- Whether a nested mapping mentions a path: the empty path (the root) is
always mentioned; a non-empty path must descend through table entries,
ending at any entry. -/
def mentionsPath (m : List (String × MVal)) : List String → Bool
  | [] => true
  | k :: rest =>
    match getVal k m with
    | none => false
    | some (MVal.scalar _) => rest.isEmpty
    | some (MVal.table t) => rest.isEmpty || mentionsPath t rest

/-- Whether a nested mapping writes a Leaf (a scalar) at exactly the given
path. -/
def writesLeaf (m : List (String × MVal)) : List String → Bool
  | [] => false
  | [k] =>
    match getVal k m with
    | some (MVal.scalar _) => true
    | _ => false
  | k :: rest =>
    match getVal k m with
    | some (MVal.table t) => writesLeaf t rest
    | _ => false

/-- The nested mapping that writes a single scalar at exactly one path. -/
def pathMapping : List String → Value → List (String × MVal)
  | [], _ => []
  | [k], v => [(k, MVal.scalar v)]
  | k :: rest, v => [(k, MVal.table (pathMapping rest v))]

/-- The configuration store of `yt/config.py`: a `YTConfig` owns one
configuration tree, whose root is an unnamed Node. -/
structure YTConfig where
  config_root : List (String × ConfigTree)

/-- `YTConfig.update` (`yt/config.py`): metadata defaults to the empty
mapping when not given, then the nested mapping is merged into the root. -/
def YTConfig.update (c : YTConfig) (new_values : List (String × MVal))
    (metadata : Option Metadata) : YTConfig :=
  ⟨mergeList c.config_root new_values (metadata.getD [])⟩

/-- `YTConfig.get_most_specific` (`yt/config.py`): try the deepest-leaf
resolution of `section :: keys`; on `KeyError` return the fallback value
when the `fallback` keyword was passed (`none` here means it was absent,
`some x` that it was passed with value `x`), and re-raise otherwise. -/
def YTConfig.get_most_specific (c : YTConfig) (sec : String) (keys : List String)
    (fallback : Option Value) : Except ConfigError Value :=
  match getDeepestLeaf (ConfigTree.node c.config_root) (sec :: keys) with
  | some (v, _) => Except.ok v
  | none =>
    match fallback with
    | some fb => Except.ok fb
    | none => Except.error ConfigError.notFound

/-- `YTConfig.has_section` (`yt/config.py`): whether `get_child` on the root
succeeds for the section name. -/
def YTConfig.has_section (c : YTConfig) (sec : String) : Bool :=
  (getVal sec c.config_root).isSome

/-- Modelled from the spec: `RemoveChild(name)` (§4.1) at the root Node,
failing `NotFound` when no child with that name is present. -/
def removeChild (cs : List (String × ConfigTree)) (k : String) :
    Except ConfigError (List (String × ConfigTree)) :=
  if (getVal k cs).isSome then Except.ok (delVal k cs)
  else Except.error ConfigError.notFound

/-- `YTConfig.remove_section` (`yt/config.py`): remove the section and
return `true` when it is present, otherwise return `false`; the `NotFound`
failure of `remove_child` is avoided by the `has_section` guard. -/
def YTConfig.remove_section (c : YTConfig) (sec : String) :
    Except ConfigError (YTConfig × Bool) :=
  if c.has_section sec then
    (removeChild c.config_root sec).map (fun cs => (⟨cs⟩, true))
  else
    Except.ok (c, false)

/-- `YTConfig.set` (`yt/config.py`): metadata defaults to
`{"source": "runtime"}`, then `upsert_from_list` runs on `[section] ++ keys`
with the value. -/
def YTConfig.set (c : YTConfig) (sec : String) (keys : List String) (value : Value)
    (metadata : Option Metadata) : Except ConfigError YTConfig :=
  (upsertList c.config_root (sec :: keys) value
      (metadata.getD [("source", "runtime")])).map (fun cs => ⟨cs⟩)

/-- The state after `YTConfig.set`, when the failure is caught: the new
store on success and the unchanged one on failure (no partial-success state
is exposed). -/
def YTConfig.setState (c : YTConfig) (sec : String) (keys : List String) (value : Value)
    (metadata : Option Metadata) : YTConfig :=
  match c.set sec keys value metadata with
  | Except.ok c₂ => c₂
  | Except.error _ => c

/-- `YTConfig.remove` (`yt/config.py`): `pop_leaf` on the argument path. -/
def YTConfig.remove (c : YTConfig) (args : List String) : Except ConfigError YTConfig :=
  (popList c.config_root args).map (fun cs => ⟨cs⟩)

/-- `YTConfig.__contains__` (`yt/config.py`): containment of a path in the
root, true iff navigation succeeds. -/
def YTConfig.contains (c : YTConfig) (item : List String) : Bool :=
  (navigate (ConfigTree.node c.config_root) item).isSome

/-- `YTConfig.read` (`yt/config.py`): for each file name in caller order,
skip it when it does not exist, otherwise parse it and merge the mapping
with metadata `{"source": "file: <name>"}`; return the new store together
with the list of file names actually read, in order.  The filesystem plus
TOML parser is abstracted as a partial map from names to parsed mappings. -/
def YTConfig.read (c : YTConfig) (fs : String → Option (List (String × MVal))) :
    List String → YTConfig × List String
  | [] => (c, [])
  | fname :: rest =>
    match fs fname with
    | none => YTConfig.read c fs rest
    | some data =>
      let c' := YTConfig.update c data (some [("source", "file: " ++ fname)])
      let r := YTConfig.read c' fs rest
      (r.1, fname :: r.2)

/-- `YTConfig.write`'s exported value (`yt/config.py`): `as_dict` of the
root, the nested mapping handed to the TOML serializer. -/
def YTConfig.as_dict (c : YTConfig) : List (String × MVal) :=
  exportList c.config_root

/-- The stores built from an empty store by one or more `update` calls. -/
inductive Built : YTConfig → Prop
  | one : ∀ (m : List (String × MVal)) (meta : Option Metadata),
      Built (YTConfig.update ⟨[]⟩ m meta)
  | more : ∀ (c : YTConfig) (m : List (String × MVal)) (meta : Option Metadata),
      Built c → Built (c.update m meta)

/-! ### Association-list lemmas -/

theorem getVal_setVal_self {α : Type} (k : String) (v : α) (l : List (String × α)) :
    getVal k (setVal k v l) = some v := by
  induction l with
  | nil => simp [getVal, setVal]
  | cons p rest ih =>
    obtain ⟨k', v'⟩ := p
    by_cases h : k = k' <;> simp [getVal, setVal, h, ih]

theorem getVal_setVal_ne {α : Type} {k k' : String} (v : α) (l : List (String × α))
    (h : k ≠ k') : getVal k (setVal k' v l) = getVal k l := by
  induction l with
  | nil => simp [getVal, setVal, h]
  | cons p rest ih =>
    obtain ⟨k₀, v₀⟩ := p
    by_cases h0 : k' = k₀
    · subst h0
      simp [getVal, setVal, h]
    · by_cases h1 : k = k₀ <;> simp [getVal, setVal, h0, h1, ih]

theorem delVal_cons {α : Type} (k k₀ : String) (v₀ : α) (rest : List (String × α)) :
    delVal k ((k₀, v₀) :: rest) =
      if k₀ = k then delVal k rest else (k₀, v₀) :: delVal k rest := by
  by_cases h : k₀ = k <;> simp [delVal, List.filter_cons, h]

theorem getVal_delVal_self {α : Type} (k : String) (l : List (String × α)) :
    getVal k (delVal k l) = none := by
  induction l with
  | nil => simp [getVal, delVal]
  | cons p rest ih =>
    obtain ⟨k₀, v₀⟩ := p
    rw [delVal_cons]
    by_cases h : k₀ = k
    · simp [h, ih]
    · have hk : k ≠ k₀ := fun hh => h hh.symm
      simp [h, getVal, hk, ih]

theorem getVal_mem {α : Type} {k : String} {v : α} {l : List (String × α)}
    (h : getVal k l = some v) : (k, v) ∈ l := by
  induction l with
  | nil => simp [getVal] at h
  | cons p rest ih =>
    obtain ⟨k₀, v₀⟩ := p
    by_cases h0 : k = k₀
    · subst h0
      simp [getVal] at h
      simp [h]
    · simp [getVal, h0] at h
      simp [ih h]

theorem getVal_eq_none_of_all_ne {α : Type} {k : String} {l : List (String × α)}
    (h : ∀ p ∈ l, p.1 ≠ k) : getVal k l = none := by
  induction l with
  | nil => simp [getVal]
  | cons p rest ih =>
    obtain ⟨k₀, v₀⟩ := p
    have hk : k ≠ k₀ := by
      intro hh
      exact (h (k₀, v₀) (by simp)) hh.symm
    simp [getVal, hk]
    exact ih (fun q hq => h q (by simp [hq]))

theorem setVal_eq_append {α : Type} {k : String} (v : α) {l : List (String × α)}
    (h : getVal k l = none) : setVal k v l = l ++ [(k, v)] := by
  induction l with
  | nil => simp [setVal]
  | cons p rest ih =>
    obtain ⟨k₀, v₀⟩ := p
    by_cases h0 : k = k₀
    · simp [getVal, h0] at h
    · simp [getVal, h0] at h
      simp [setVal, h0, ih h]

theorem getVal_append {α : Type} (k : String) (l₁ l₂ : List (String × α)) :
    getVal k (l₁ ++ l₂) =
      (match getVal k l₁ with
       | some v => some v
       | none => getVal k l₂) := by
  induction l₁ with
  | nil => simp [getVal]
  | cons p rest ih =>
    obtain ⟨k₀, v₀⟩ := p
    by_cases h0 : k = k₀ <;> simp [getVal, h0, ih]

/-! ### Navigation lemmas -/

theorem navigate_nil (t : ConfigTree) : navigate t [] = some t := by
  cases t <;> rfl

theorem navigate_leaf (v : Value) (m : Metadata) (k : String) (rest : List String) :
    navigate (ConfigTree.leaf v m) (k :: rest) = none := rfl

theorem navigate_node_cons (cs : List (String × ConfigTree)) (k : String)
    (rest : List String) :
    navigate (ConfigTree.node cs) (k :: rest) =
      (match getVal k cs with
       | none => none
       | some c => navigate c rest) := rfl

/-! ### Mapping well-formedness lemmas -/

theorem mtableWF_cons_elim {k : String} {v : MVal} {rest : List (String × MVal)}
    (h : mtableWF ((k, v) :: rest) = true) :
    getVal k rest = none ∧ mvalWF v = true ∧ mtableWF rest = true := by
  simp only [mtableWF, Bool.and_eq_true, List.all_eq_true] at h
  obtain ⟨⟨hne, hv⟩, hrest⟩ := h
  refine ⟨getVal_eq_none_of_all_ne ?_, hv, hrest⟩
  intro p hp
  simpa using hne p hp

theorem mtableWF_getVal {k : String} {x : MVal} {m : List (String × MVal)}
    (hWF : mtableWF m = true) (hg : getVal k m = some x) : mvalWF x = true := by
  induction m with
  | nil => simp [getVal] at hg
  | cons p rest ih =>
    obtain ⟨k₀, v₀⟩ := p
    obtain ⟨-, hv, hrest⟩ := mtableWF_cons_elim hWF
    by_cases hk : k = k₀
    · simp [getVal, hk] at hg
      exact hg ▸ hv
    · simp [getVal, hk] at hg
      exact ih hrest hg

/-! ### Merge lookup lemmas -/

theorem mergeList_nil (cs : List (String × ConfigTree)) (meta : Metadata) :
    mergeList cs [] meta = cs := by
  simp [mergeList]

theorem getVal_mergeList_not_mem {k : String} {m : List (String × MVal)}
    (cs : List (String × ConfigTree)) (meta : Metadata)
    (h : getVal k m = none) :
    getVal k (mergeList cs m meta) = getVal k cs := by
  induction m generalizing cs with
  | nil => simp [mergeList]
  | cons p rest ih =>
    obtain ⟨k₀, v₀⟩ := p
    by_cases hk : k = k₀
    · simp [getVal, hk] at h
    · simp only [getVal, if_neg hk] at h
      cases v₀ with
      | scalar v =>
        simp only [mergeList]
        rw [ih _ h, getVal_setVal_ne _ _ hk]
      | table t =>
        simp only [mergeList]
        rw [ih _ h, getVal_setVal_ne _ _ hk]

theorem getVal_mergeList_scalar {k : String} {v : Value} {m : List (String × MVal)}
    (cs : List (String × ConfigTree)) (meta : Metadata)
    (hWF : mtableWF m = true) (h : getVal k m = some (MVal.scalar v)) :
    getVal k (mergeList cs m meta) = some (ConfigTree.leaf v meta) := by
  induction m generalizing cs with
  | nil => simp [getVal] at h
  | cons p rest ih =>
    obtain ⟨k₀, v₀⟩ := p
    obtain ⟨hnone, -, hrest⟩ := mtableWF_cons_elim hWF
    by_cases hk : k = k₀
    · subst hk
      simp [getVal] at h
      subst h
      simp only [mergeList]
      rw [getVal_mergeList_not_mem _ _ hnone, getVal_setVal_self]
    · simp only [getVal, if_neg hk] at h
      cases v₀ with
      | scalar v' =>
        simp only [mergeList]
        exact ih _ hrest h
      | table t' =>
        simp only [mergeList]
        exact ih _ hrest h

theorem getVal_mergeList_table {k : String} {t : List (String × MVal)}
    {m : List (String × MVal)}
    (cs : List (String × ConfigTree)) (meta : Metadata)
    (hWF : mtableWF m = true) (h : getVal k m = some (MVal.table t)) :
    getVal k (mergeList cs m meta) =
      some (ConfigTree.node (mergeList (childrenOrEmpty (getVal k cs)) t meta)) := by
  induction m generalizing cs with
  | nil => simp [getVal] at h
  | cons p rest ih =>
    obtain ⟨k₀, v₀⟩ := p
    obtain ⟨hnone, -, hrest⟩ := mtableWF_cons_elim hWF
    by_cases hk : k = k₀
    · subst hk
      simp [getVal] at h
      subst h
      simp only [mergeList]
      rw [getVal_mergeList_not_mem _ _ hnone, getVal_setVal_self]
    · simp only [getVal, if_neg hk] at h
      cases v₀ with
      | scalar v' =>
        simp only [mergeList]
        rw [ih _ hrest h, getVal_setVal_ne _ _ hk]
      | table t' =>
        simp only [mergeList]
        rw [ih _ hrest h, getVal_setVal_ne _ _ hk]

/-! ### Most-specific resolution: equivalence with longest-prefix search -/

theorem findSome?_ext {α β : Type} {l : List α} {f g : α → Option β}
    (h : ∀ a ∈ l, f a = g a) : l.findSome? f = l.findSome? g := by
  induction l with
  | nil => rfl
  | cons a rest ih =>
    rw [List.findSome?_cons, List.findSome?_cons, h a (by simp)]
    cases g a with
    | none => exact ih (fun y hy => h y (by simp [hy]))
    | some b => rfl

theorem getDeepestLeaf_unfold (t : ConfigTree) (p : List String) :
    getDeepestLeaf t p =
      (match leafAt t p with
       | some r => some r
       | none => if p = [] then none else getDeepestLeaf t p.dropLast) := by
  rw [getDeepestLeaf]
  unfold leafAt
  cases hn : navigate t p with
  | none => simp
  | some c => cases c <;> simp

theorem deepestBySearch_nil (t : ConfigTree) : deepestBySearch t [] = leafAt t [] := by
  unfold deepestBySearch
  have h1 : (List.range (List.length ([] : List String) + 1)).reverse = [0] := rfl
  rw [h1, List.findSome?_cons]
  simp only [List.take_nil]
  cases leafAt t [] <;> simp

theorem deepestBySearch_concat (t : ConfigTree) (xs : List String) (x : String) :
    deepestBySearch t (xs ++ [x]) =
      (match leafAt t (xs ++ [x]) with
       | some r => some r
       | none => deepestBySearch t xs) := by
  unfold deepestBySearch
  have hlen : (xs ++ [x]).length = xs.length + 1 := by simp
  rw [hlen, List.range_succ, List.reverse_append, List.reverse_singleton,
    List.singleton_append, List.findSome?_cons]
  have htake : (xs ++ [x]).take (xs.length + 1) = xs ++ [x] := by
    rw [← hlen, List.take_length]
  rw [htake]
  cases leafAt t (xs ++ [x]) with
  | some r => rfl
  | none =>
    simp only []
    exact findSome?_ext (fun k hk => by
      rw [List.mem_reverse, List.mem_range] at hk
      rw [List.take_append_of_le_length (by omega)])

theorem getDeepestLeaf_eq_deepestBySearch (t : ConfigTree) (p : List String) :
    getDeepestLeaf t p = deepestBySearch t p := by
  induction p using List.reverseRecOn with
  | nil =>
    rw [getDeepestLeaf_unfold, deepestBySearch_nil]
    cases leafAt t [] <;> simp
  | append_singleton xs x ih =>
    rw [getDeepestLeaf_unfold, deepestBySearch_concat]
    cases leafAt t (xs ++ [x]) with
    | some r => rfl
    | none => simp [List.dropLast_concat, ih]

/-! ### Upsert lemmas -/

theorem upsertList_conflict :
    ∀ (path : List String) (cs : List (String × ConfigTree)) (i : Nat)
      (v : Value) (meta : Metadata) (v' : Value) (m' : Metadata),
      i + 1 < path.length →
      navigate (ConfigTree.node cs) (path.take (i + 1)) = some (ConfigTree.leaf v' m') →
      upsertList cs path v meta = Except.error ConfigError.typeConflict := by
  intro path
  induction path with
  | nil => intro cs i v meta v' m' hi _; simp at hi
  | cons k rest ih =>
    intro cs i v meta v' m' hi hnav
    cases rest with
    | nil => simp at hi
    | cons r rs =>
      cases i with
      | zero =>
        simp only [List.take, navigate] at hnav
        cases hg : getVal k cs with
        | none => rw [hg] at hnav; simp at hnav
        | some c =>
          rw [hg] at hnav
          simp at hnav
          subst hnav
          simp [upsertList, hg]
      | succ j =>
        have htake : (k :: r :: rs).take (j + 1 + 1) = k :: ((r :: rs).take (j + 1)) := rfl
        rw [htake] at hnav
        rw [navigate_node_cons] at hnav
        cases hg : getVal k cs with
        | none => rw [hg] at hnav; simp at hnav
        | some c =>
          rw [hg] at hnav
          cases c with
          | leaf v₀ m₀ => simp [upsertList, hg]
          | node cs' =>
            simp only [] at hnav
            have hlen : j + 1 < (r :: rs).length := by
              simp at hi ⊢
              omega
            have herr := ih cs' j v meta v' m' hlen hnav
            simp [upsertList, hg, herr, Except.map]

theorem navigate_upsertList :
    ∀ (path : List String) (cs cs₂ : List (String × ConfigTree)) (v : Value)
      (meta : Metadata),
      upsertList cs path v meta = Except.ok cs₂ →
      navigate (ConfigTree.node cs₂) path = some (ConfigTree.leaf v meta) := by
  intro path
  induction path with
  | nil => intro cs cs₂ v meta h; simp [upsertList] at h
  | cons k rest ih =>
    intro cs cs₂ v meta h
    cases rest with
    | nil =>
      simp only [upsertList] at h
      injection h with h
      subst h
      rw [navigate_node_cons, getVal_setVal_self]
      rfl
    | cons r rs =>
      rw [navigate_node_cons]
      cases hg : getVal k cs with
      | none =>
        simp only [upsertList, hg] at h
        cases h' : upsertList [] (r :: rs) v meta with
        | error e => rw [h'] at h; simp [Except.map] at h
        | ok cs₂' =>
          rw [h'] at h
          simp only [Except.map] at h
          injection h with h
          subst h
          rw [getVal_setVal_self]
          exact ih [] cs₂' v meta h'
      | some c =>
        cases c with
        | leaf v₀ m₀ => simp [upsertList, hg] at h
        | node cs' =>
          simp only [upsertList, hg] at h
          cases h' : upsertList cs' (r :: rs) v meta with
          | error e => rw [h'] at h; simp [Except.map] at h
          | ok cs₂' =>
            rw [h'] at h
            simp only [Except.map] at h
            injection h with h
            subst h
            rw [getVal_setVal_self]
            exact ih cs' cs₂' v meta h'

/-! ### Removal lemmas -/

theorem popList_ok_of_navigate :
    ∀ (path : List String) (cs : List (String × ConfigTree)) (t : ConfigTree),
      path ≠ [] → navigate (ConfigTree.node cs) path = some t →
      ∃ cs₂, popList cs path = Except.ok cs₂ := by
  intro path
  induction path with
  | nil => intro cs t h _; exact absurd rfl h
  | cons k rest ih =>
    intro cs t _ hnav
    rw [navigate_node_cons] at hnav
    cases hg : getVal k cs with
    | none => rw [hg] at hnav; simp at hnav
    | some c =>
      rw [hg] at hnav
      cases rest with
      | nil => exact ⟨delVal k cs, by simp [popList, hg]⟩
      | cons r rs =>
        cases c with
        | leaf v₀ m₀ => simp [navigate] at hnav
        | node cs' =>
          obtain ⟨cs₂', h₂⟩ := ih cs' t (by simp) hnav
          exact ⟨setVal k (ConfigTree.node cs₂') cs, by simp [popList, hg, h₂, Except.map]⟩

theorem navigate_popList_none :
    ∀ (path : List String) (cs cs₂ : List (String × ConfigTree)),
      popList cs path = Except.ok cs₂ →
      navigate (ConfigTree.node cs₂) path = none := by
  intro path
  induction path with
  | nil => intro cs cs₂ h; simp [popList] at h
  | cons k rest ih =>
    intro cs cs₂ h
    cases rest with
    | nil =>
      simp only [popList] at h
      cases hg : getVal k cs with
      | none => rw [hg] at h; simp at h
      | some c =>
        rw [hg] at h
        simp only [] at h
        injection h with h
        subst h
        rw [navigate_node_cons, getVal_delVal_self]
    | cons r rs =>
      simp only [popList] at h
      cases hg : getVal k cs with
      | none => rw [hg] at h; simp at h
      | some c =>
        rw [hg] at h
        cases c with
        | leaf v₀ m₀ => simp at h
        | node cs' =>
          simp only [] at h
          cases h' : popList cs' (r :: rs) with
          | error e => rw [h'] at h; simp [Except.map] at h
          | ok cs₂' =>
            rw [h'] at h
            simp only [Except.map] at h
            injection h with h
            subst h
            rw [navigate_node_cons, getVal_setVal_self]
            exact ih cs' cs₂' h'

theorem popList_err_of_navigate_none :
    ∀ (path : List String) (cs : List (String × ConfigTree)),
      path ≠ [] → navigate (ConfigTree.node cs) path = none →
      popList cs path = Except.error ConfigError.notFound := by
  intro path
  induction path with
  | nil => intro cs h _; exact absurd rfl h
  | cons k rest ih =>
    intro cs _ hnav
    rw [navigate_node_cons] at hnav
    cases rest with
    | nil =>
      cases hg : getVal k cs with
      | none => simp [popList, hg]
      | some c => rw [hg] at hnav; simp [navigate_nil] at hnav
    | cons r rs =>
      cases hg : getVal k cs with
      | none => simp [popList, hg]
      | some c =>
        rw [hg] at hnav
        cases c with
        | leaf v₀ m₀ => simp [popList, hg]
        | node cs' =>
          have h' := ih cs' (by simp) hnav
          simp [popList, hg, h', Except.map]

/-! ### Single-path merge lemma -/

theorem navigate_mergeList_pathMapping :
    ∀ (p : List String) (cs : List (String × ConfigTree)) (v : Value) (meta : Metadata),
      p ≠ [] →
      navigate (ConfigTree.node (mergeList cs (pathMapping p v) meta)) p =
        some (ConfigTree.leaf v meta) := by
  intro p
  induction p with
  | nil => intro cs v meta h; exact absurd rfl h
  | cons k rest ih =>
    intro cs v meta _
    cases rest with
    | nil =>
      simp only [pathMapping, mergeList]
      rw [navigate_node_cons, getVal_setVal_self]
      rfl
    | cons r rs =>
      simp only [pathMapping, mergeList]
      rw [navigate_node_cons, getVal_setVal_self]
      exact ih (childrenOrEmpty (getVal k cs)) v meta (by simp)

/-! ### Frame lemma for merge -/

theorem navigate_mergeList_frame :
    ∀ (q : List String) (m : List (String × MVal)) (cs : List (String × ConfigTree))
      (meta : Metadata),
      mtableWF m = true →
      mentionsPath m q = false →
      (∀ i, 0 < i → i < q.length → writesLeaf m (q.take i) = false) →
      navigate (ConfigTree.node (mergeList cs m meta)) q =
        navigate (ConfigTree.node cs) q := by
  intro q
  induction q with
  | nil => intro m cs meta _ hment _; simp [mentionsPath] at hment
  | cons k rest ih =>
    intro m cs meta hWF hment hwl
    rw [navigate_node_cons, navigate_node_cons]
    cases hg : getVal k m with
    | none => rw [getVal_mergeList_not_mem cs meta hg]
    | some mv =>
      cases mv with
      | scalar v =>
        have hre : rest.isEmpty = false := by simpa [mentionsPath, hg] using hment
        cases rest with
        | nil => simp at hre
        | cons r rs =>
          have hw : writesLeaf m ((k :: r :: rs).take 1) = false := hwl 1 (by omega) (by simp)
          have hw' : writesLeaf m [k] = true := by simp [writesLeaf, hg]
          rw [show (k :: r :: rs).take 1 = [k] from rfl, hw'] at hw
          simp at hw
      | table t =>
        have hm : (rest.isEmpty || mentionsPath t rest) = false := by
          simpa [mentionsPath, hg] using hment
        rw [Bool.or_eq_false_iff] at hm
        obtain ⟨hre, hmt⟩ := hm
        cases rest with
        | nil => simp at hre
        | cons r rs =>
          have hWFt : mtableWF t = true := by
            have := mtableWF_getVal hWF hg
            simpa [mvalWF] using this
          have hwl' : ∀ i, 0 < i → i < (r :: rs).length →
              writesLeaf t ((r :: rs).take i) = false := by
            intro i hi hilen
            cases i with
            | zero => omega
            | succ j =>
              have h2 : writesLeaf m ((k :: r :: rs).take (j + 2)) = false :=
                hwl (j + 2) (by omega) (by simp at hilen ⊢; omega)
              rw [show (k :: r :: rs).take (j + 2) = k :: r :: rs.take j from rfl] at h2
              rw [show (r :: rs).take (j + 1) = r :: rs.take j from rfl]
              simpa [writesLeaf, hg] using h2
          have hrec := ih t (childrenOrEmpty (getVal k cs)) meta hWFt hmt hwl'
          rw [getVal_mergeList_table cs meta hWF hg]
          cases hgc : getVal k cs with
          | none =>
            rw [hgc] at hrec
            simp only [childrenOrEmpty] at hrec ⊢
            rw [hrec]
            simp [navigate, getVal]
          | some c =>
            cases c with
            | leaf v₀ m₀ =>
              rw [hgc] at hrec
              simp only [childrenOrEmpty] at hrec ⊢
              rw [hrec]
              simp [navigate, getVal]
            | node cs' =>
              rw [hgc] at hrec
              simp only [childrenOrEmpty] at hrec ⊢
              exact hrec

/-! ### Tree well-formedness lemmas -/

theorem all_ne_of_getVal_eq_none {α : Type} {k : String} {l : List (String × α)}
    (h : getVal k l = none) : ∀ p ∈ l, p.1 ≠ k := by
  induction l with
  | nil => simp
  | cons p rest ih =>
    obtain ⟨k₀, v₀⟩ := p
    by_cases hk : k = k₀
    · simp [getVal, hk] at h
    · simp only [getVal, if_neg hk] at h
      intro q hq
      rcases List.mem_cons.mp hq with hq | hq
      · subst hq; exact fun hh => hk hh.symm
      · exact ih h q hq

theorem cnodeWF_cons_elim {k : String} {c : ConfigTree} {rest : List (String × ConfigTree)}
    (h : cnodeWF ((k, c) :: rest) = true) :
    getVal k rest = none ∧ ctreeWF c = true ∧ cnodeWF rest = true := by
  simp only [cnodeWF, Bool.and_eq_true, List.all_eq_true] at h
  obtain ⟨⟨hne, hc⟩, hrest⟩ := h
  refine ⟨getVal_eq_none_of_all_ne ?_, hc, hrest⟩
  intro p hp
  simpa using hne p hp

theorem cnodeWF_getVal {k : String} {c : ConfigTree} {cs : List (String × ConfigTree)}
    (h : cnodeWF cs = true) (hg : getVal k cs = some c) : ctreeWF c = true := by
  induction cs with
  | nil => simp [getVal] at hg
  | cons p rest ih =>
    obtain ⟨k₀, c₀⟩ := p
    obtain ⟨-, hc, hrest⟩ := cnodeWF_cons_elim h
    by_cases hk : k = k₀
    · simp [getVal, hk] at hg
      exact hg ▸ hc
    · simp [getVal, hk] at hg
      exact ih hrest hg

theorem childrenOrEmpty_WF {cs : List (String × ConfigTree)} (k : String)
    (h : cnodeWF cs = true) : cnodeWF (childrenOrEmpty (getVal k cs)) = true := by
  cases hg : getVal k cs with
  | none => simp [childrenOrEmpty, cnodeWF]
  | some c =>
    cases c with
    | leaf v m => simp [childrenOrEmpty, cnodeWF]
    | node cs' =>
      have := cnodeWF_getVal h hg
      simpa [childrenOrEmpty, ctreeWF] using this

theorem mem_setVal {α : Type} {p : String × α} {k : String} {x : α}
    {l : List (String × α)} (h : p ∈ setVal k x l) : p = (k, x) ∨ p ∈ l := by
  induction l with
  | nil => simpa [setVal] using h
  | cons q rest ih =>
    obtain ⟨k₀, v₀⟩ := q
    by_cases hk : k = k₀
    · simp only [setVal, if_pos hk] at h
      rcases List.mem_cons.mp h with h | h
      · exact Or.inl h
      · exact Or.inr (List.mem_cons.mpr (Or.inr h))
    · simp only [setVal, if_neg hk] at h
      rcases List.mem_cons.mp h with h | h
      · exact Or.inr (List.mem_cons.mpr (Or.inl h))
      · rcases ih h with h | h
        · exact Or.inl h
        · exact Or.inr (List.mem_cons.mpr (Or.inr h))

theorem cnodeWF_setVal {cs : List (String × ConfigTree)} (k : String) {x : ConfigTree}
    (hcs : cnodeWF cs = true) (hx : ctreeWF x = true) :
    cnodeWF (setVal k x cs) = true := by
  induction cs with
  | nil => simp [setVal, cnodeWF, hx]
  | cons p rest ih =>
    obtain ⟨k₀, c₀⟩ := p
    simp only [cnodeWF, Bool.and_eq_true, List.all_eq_true] at hcs
    obtain ⟨⟨hne, hc₀⟩, hrest⟩ := hcs
    by_cases hk : k = k₀
    · subst hk
      simp only [setVal, if_pos rfl, cnodeWF, Bool.and_eq_true, List.all_eq_true]
      exact ⟨⟨hne, hx⟩, hrest⟩
    · simp only [setVal, if_neg hk, cnodeWF, Bool.and_eq_true, List.all_eq_true]
      refine ⟨⟨?_, hc₀⟩, ih hrest⟩
      intro p hp
      rcases mem_setVal hp with hp | hp
      · subst hp
        simpa using fun hh => hk hh
      · exact hne p hp

theorem mergeList_WF_aux :
    ∀ (n : Nat) (m : List (String × MVal)), sizeOf m ≤ n →
      ∀ (cs : List (String × ConfigTree)) (meta : Metadata), cnodeWF cs = true →
        cnodeWF (mergeList cs m meta) = true := by
  intro n
  induction n with
  | zero =>
    intro m hm
    exfalso
    cases m <;> simp at hm
  | succ n ih =>
    intro m hm cs meta hcs
    cases m with
    | nil => simpa [mergeList] using hcs
    | cons p rest =>
      obtain ⟨k, mv⟩ := p
      cases mv with
      | scalar v =>
        simp only [mergeList]
        refine ih rest ?_ _ meta (cnodeWF_setVal k hcs (by simp [ctreeWF]))
        simp at hm
        omega
      | table t =>
        simp only [mergeList]
        refine ih rest ?_ _ meta (cnodeWF_setVal k hcs ?_)
        · simp at hm
          omega
        · show ctreeWF (ConfigTree.node (mergeList (childrenOrEmpty (getVal k cs)) t meta)) = true
          have ht : sizeOf t ≤ n := by simp at hm; omega
          simpa [ctreeWF] using ih t ht _ meta (childrenOrEmpty_WF k hcs)

theorem mergeList_WF (m : List (String × MVal)) (cs : List (String × ConfigTree))
    (meta : Metadata) (hcs : cnodeWF cs = true) :
    cnodeWF (mergeList cs m meta) = true :=
  mergeList_WF_aux (sizeOf m) m le_rfl cs meta hcs

theorem built_WF {c : YTConfig} (h : Built c) : cnodeWF c.config_root = true := by
  induction h with
  | one m meta => exact mergeList_WF m [] (meta.getD []) (by simp [cnodeWF])
  | more c m meta hb ih => exact mergeList_WF m c.config_root (meta.getD []) ih

/-! ### Round-trip lemmas -/

theorem mergeList_export_aux :
    ∀ (n : Nat) (cs : List (String × ConfigTree)), sizeOf cs ≤ n →
      cnodeWF cs = true →
      ∀ (acc : List (String × ConfigTree)) (meta : Metadata),
        (∀ p ∈ cs, getVal p.1 acc = none) →
        mergeList acc (exportList cs) meta = acc ++ retagList meta cs := by
  intro n
  induction n with
  | zero =>
    intro cs hsz
    exfalso
    cases cs <;> simp at hsz
  | succ n ih =>
    intro cs hsz hWF acc meta hdisj
    cases cs with
    | nil => simp [exportList, mergeList, retagList]
    | cons p rest =>
      obtain ⟨k, c⟩ := p
      obtain ⟨hkrest, hc, hrest⟩ := cnodeWF_cons_elim hWF
      have hkacc : getVal k acc = none := hdisj (k, c) (by simp)
      have hdisj' : ∀ x : ConfigTree, ∀ p ∈ rest, getVal p.1 (acc ++ [(k, x)]) = none := by
        intro x p hp
        rw [getVal_append]
        rw [hdisj p (by simp [hp])]
        have hpk : p.1 ≠ k := all_ne_of_getVal_eq_none hkrest p hp
        simp [getVal, hpk]
      cases c with
      | leaf v m' =>
        simp only [exportList, exportTree, mergeList]
        rw [setVal_eq_append _ hkacc]
        rw [ih rest ?_ hrest (acc ++ [(k, ConfigTree.leaf v meta)]) meta
          (hdisj' (ConfigTree.leaf v meta))]
        · simp [retagList, retagTree]
        · simp at hsz
          omega
      | node cs' =>
        have hcs' : cnodeWF cs' = true := by simpa [ctreeWF] using hc
        simp only [exportList, exportTree, mergeList]
        rw [hkacc]
        have hinner : mergeList [] (exportList cs') meta = retagList meta cs' := by
          have := ih cs' (by simp at hsz; omega) hcs' [] meta (by simp [getVal])
          simpa using this
        simp only [childrenOrEmpty]
        rw [hinner]
        rw [setVal_eq_append _ hkacc]
        rw [ih rest ?_ hrest (acc ++ [(k, ConfigTree.node (retagList meta cs'))]) meta
          (hdisj' (ConfigTree.node (retagList meta cs')))]
        · simp [retagList, retagTree]
        · simp at hsz
          omega

theorem mergeList_export (cs : List (String × ConfigTree)) (meta : Metadata)
    (hWF : cnodeWF cs = true) :
    mergeList [] (exportList cs) meta = retagList meta cs := by
  have := mergeList_export_aux (sizeOf cs) cs le_rfl hWF [] meta (by simp [getVal])
  simpa using this

theorem leafPairsList_retag_aux :
    ∀ (n : Nat) (cs : List (String × ConfigTree)), sizeOf cs ≤ n →
      ∀ (meta : Metadata), leafPairsList (retagList meta cs) = leafPairsList cs := by
  intro n
  induction n with
  | zero =>
    intro cs hsz
    exfalso
    cases cs <;> simp at hsz
  | succ n ih =>
    intro cs hsz meta
    cases cs with
    | nil => simp [retagList]
    | cons p rest =>
      obtain ⟨k, c⟩ := p
      cases c with
      | leaf v m' =>
        simp only [retagList, retagTree, leafPairsList]
        rw [ih rest (by simp at hsz; omega) meta]
      | node cs' =>
        simp only [retagList, retagTree, leafPairsList]
        rw [ih rest (by simp at hsz; omega) meta, ih cs' (by simp at hsz; omega) meta]

theorem leafPairsList_retag (cs : List (String × ConfigTree)) (meta : Metadata) :
    leafPairsList (retagList meta cs) = leafPairsList cs :=
  leafPairsList_retag_aux (sizeOf cs) cs le_rfl meta

/-! ### Read lemmas -/

theorem read_spec :
    ∀ (files : List String) (c : YTConfig) (fs : String → Option (List (String × MVal))),
      (c.read fs files).2 = files.filter (fun f => (fs f).isSome) ∧
      (c.read fs files).1 = files.foldl
        (fun acc f =>
          match fs f with
          | none => acc
          | some d => acc.update d (some [("source", "file: " ++ f)])) c := by
  intro files
  induction files with
  | nil => intro c fs; exact ⟨rfl, rfl⟩
  | cons f rest ih =>
    intro c fs
    cases hf : fs f with
    | none =>
      constructor
      · show (YTConfig.read c fs (f :: rest)).2 = _
        simp only [YTConfig.read, hf, List.filter_cons, Option.isSome_none]
        simpa using (ih c fs).1
      · show (YTConfig.read c fs (f :: rest)).1 = _
        simp only [YTConfig.read, hf, List.foldl_cons]
        exact (ih c fs).2
    | some d =>
      constructor
      · show (YTConfig.read c fs (f :: rest)).2 = _
        simp only [YTConfig.read, hf, List.filter_cons, Option.isSome_some]
        simpa using (ih _ fs).1
      · show (YTConfig.read c fs (f :: rest)).1 = _
        simp only [YTConfig.read, hf, List.foldl_cons]
        exact (ih _ fs).2

/-! ### Concrete example data -/

/-- Example metadata record with a `source` tag. -/
def exMeta : Metadata := [("source", "defaults")]

/-- Example root children with a Leaf at `["a","b","c"]` = 2 and a Leaf at
`["d"]` = 1. -/
def exChildrenC1 : List (String × ConfigTree) :=
  [("a", ConfigTree.node [("b", ConfigTree.node [("c",
      ConfigTree.leaf (Value.vint 2) exMeta)])]),
   ("d", ConfigTree.leaf (Value.vint 1) exMeta)]

/-! ### Claim theorems -/

/-- C1 (counterexample): the claim's concrete example state cannot exist.
No tree has a Leaf at `["a"]` = 1 and simultaneously a Leaf at
`["a","b","c"]` = 2: a Leaf has no children, so with a Leaf at `["a"]` the
path `["a","b","c"]` cannot resolve. -/
theorem c1_counterexample :
    ¬ ∃ (cs : List (String × ConfigTree)) (m₁ m₂ : Metadata),
        navigate (ConfigTree.node cs) ["a"] =
          some (ConfigTree.leaf (Value.vint 1) m₁) ∧
        navigate (ConfigTree.node cs) ["a", "b", "c"] =
          some (ConfigTree.leaf (Value.vint 2) m₂) := by
  rintro ⟨cs, m₁, m₂, h1, h2⟩
  rw [navigate_node_cons] at h1 h2
  cases hg : getVal "a" cs with
  | none =>
    rw [hg] at h1
    simp at h1
  | some c =>
    rw [hg] at h1 h2
    simp [navigate_nil] at h1
    subst h1
    simp [navigate] at h2

/-- C1 (amended): for every tree and path, most-specific resolution
(`get_most_specific` / `GetDeepestLeaf`) equals the longest-prefix search:
the value of the Leaf at the longest prefix of the path that resolves to a
Leaf, trying the full path first and then progressively shorter prefixes,
and `none` (`NotFound`) exactly when no prefix resolves to a Leaf.  With
Leaves at `["a","b","c"]` = 2 and `["d"]` = 1: resolving `["a","b","c"]`
gives 2, resolving `["d","e"]` falls back past the missing `"e"` to 1, and
resolving `["z"]` fails `NotFound`. -/
theorem c1_most_specific_resolution :
    (∀ (t : ConfigTree) (path : List String),
        getDeepestLeaf t path = deepestBySearch t path) ∧
    getDeepestLeaf (ConfigTree.node exChildrenC1) ["a", "b", "c"] =
      some (Value.vint 2, exMeta) ∧
    getDeepestLeaf (ConfigTree.node exChildrenC1) ["d", "e"] =
      some (Value.vint 1, exMeta) ∧
    getDeepestLeaf (ConfigTree.node exChildrenC1) ["z"] = none ∧
    YTConfig.get_most_specific ⟨exChildrenC1⟩ "z" [] none =
      Except.error ConfigError.notFound := by
  refine ⟨getDeepestLeaf_eq_deepestBySearch, ?_, ?_, ?_, ?_⟩
  · simp [getDeepestLeaf, navigate, getVal, exChildrenC1]
  · simp [getDeepestLeaf, navigate, getVal, exChildrenC1]
  · simp [getDeepestLeaf, navigate, getVal, exChildrenC1]
  · simp [YTConfig.get_most_specific, getDeepestLeaf, navigate, getVal, exChildrenC1]

/-- C2: for every store built from an empty store by one or more Merge
(`update`) calls, exporting it with `as_dict` (the mapping written by
`write`) and merging that mapping into a fresh empty store reproduces
exactly the same set of (path, value) pairs, whatever metadata the re-merge
uses (metadata is excluded from the comparison). -/
theorem c2_roundtrip (c : YTConfig) (h : Built c) (meta : Option Metadata)
    (pv : List String × Value) :
    pv ∈ leafPairsList ((YTConfig.update ⟨[]⟩ c.as_dict meta).config_root) ↔
      pv ∈ leafPairsList c.config_root := by
  have hWF := built_WF h
  show pv ∈ leafPairsList (mergeList [] (exportList c.config_root) (meta.getD [])) ↔ _
  rw [mergeList_export _ _ hWF, leafPairsList_retag]

/-- C2 witness: the round trip at the concrete store built by one merge of
`{"a": 1}`. -/
theorem c2_roundtrip_witness :
    (["a"], Value.vint 1) ∈
        leafPairsList ((YTConfig.update ⟨[]⟩
          (YTConfig.update ⟨[]⟩ [("a", MVal.scalar (Value.vint 1))]
            (some exMeta)).as_dict (some exMeta)).config_root) ↔
      (["a"], Value.vint 1) ∈
        leafPairsList ((YTConfig.update ⟨[]⟩ [("a", MVal.scalar (Value.vint 1))]
          (some exMeta)).config_root) :=
  c2_roundtrip _ (Built.one _ _) (some exMeta) _

/-- C3: the last Merge (`update`) that touches an exact path wins: merging a
mapping that writes `v₁` at exactly path `p` with metadata `m₁` and then one
that writes `v₂` at `p` with metadata `m₂`, on any store, leaves the Leaf at
`p` holding value `v₂` and metadata `m₂`. -/
theorem c3_last_write_wins (c : YTConfig) (p : List String) (hp : p ≠ [])
    (v₁ v₂ : Value) (m₁ m₂ : Metadata) :
    navigate (ConfigTree.node (((c.update (pathMapping p v₁) (some m₁)).update
        (pathMapping p v₂) (some m₂)).config_root)) p =
      some (ConfigTree.leaf v₂ m₂) :=
  navigate_mergeList_pathMapping p _ v₂ m₂ hp

/-- C3 witness: `Merge({"a":1}, meta1)` then `Merge({"a":2}, meta2)` on the
empty store leaves the Leaf at `["a"]` with value 2 and metadata meta2. -/
theorem c3_last_write_wins_witness :
    navigate (ConfigTree.node ((((⟨[]⟩ : YTConfig).update
        (pathMapping ["a"] (Value.vint 1)) (some [("source", "meta1")])).update
        (pathMapping ["a"] (Value.vint 2)) (some [("source", "meta2")])).config_root))
      ["a"] = some (ConfigTree.leaf (Value.vint 2) [("source", "meta2")]) :=
  c3_last_write_wins ⟨[]⟩ ["a"] (by simp) (Value.vint 1) (Value.vint 2)
    [("source", "meta1")] [("source", "meta2")]

/-- C4: when some non-final segment of the path names an existing Leaf,
`set` (Upsert) fails `TypeConflict` instead of replacing that Leaf with a
Node, and the store is left unchanged by the failed call. -/
theorem c4_upsert_type_conflict (c : YTConfig) (sec : String) (keys : List String)
    (v : Value) (metadata : Option Metadata) (i : Nat) (v' : Value) (m' : Metadata)
    (hlen : i + 1 < (sec :: keys).length)
    (hleaf : navigate (ConfigTree.node c.config_root) ((sec :: keys).take (i + 1)) =
      some (ConfigTree.leaf v' m')) :
    c.set sec keys v metadata = Except.error ConfigError.typeConflict ∧
    c.setState sec keys v metadata = c := by
  have herr := upsertList_conflict (sec :: keys) c.config_root i v
    (metadata.getD [("source", "runtime")]) v' m' hlen hleaf
  have hset : c.set sec keys v metadata = Except.error ConfigError.typeConflict := by
    show (upsertList c.config_root (sec :: keys) v _).map _ = _
    rw [herr]
    rfl
  exact ⟨hset, by simp [YTConfig.setState, hset]⟩

/-- C4 witness: with a Leaf at `["a"]`, setting `["a","b"]` fails
`TypeConflict` and leaves the store unchanged. -/
theorem c4_upsert_type_conflict_witness :
    (⟨[("a", ConfigTree.leaf (Value.vint 1) exMeta)]⟩ : YTConfig).set "a" ["b"]
        (Value.vint 5) none = Except.error ConfigError.typeConflict ∧
    (⟨[("a", ConfigTree.leaf (Value.vint 1) exMeta)]⟩ : YTConfig).setState "a" ["b"]
        (Value.vint 5) none = ⟨[("a", ConfigTree.leaf (Value.vint 1) exMeta)]⟩ :=
  c4_upsert_type_conflict ⟨[("a", ConfigTree.leaf (Value.vint 1) exMeta)]⟩ "a" ["b"]
    (Value.vint 5) none 0 (Value.vint 1) exMeta (by simp)
    (by simp [navigate, getVal])

/-- C5: Merge (`update`) is frame-preserving outside the paths its mapping
mentions: for every store, every nested mapping (with the distinct keys of a
Python dictionary), and every path neither mentioned in the mapping nor
having a mentioned proper prefix at which the mapping writes a Leaf, the
Node or Leaf found at that path (with its whole subtree, values and
metadata) is identical before and after the Merge.  In particular
`Merge({"x": {"y": 1}})` followed by `Merge({"x": {"z": 2}})` leaves both
`["x","y"]` = 1 and `["x","z"]` = 2 present. -/
theorem c5_merge_frame :
    (∀ (cs : List (String × ConfigTree)) (m : List (String × MVal)) (meta : Metadata)
        (q : List String),
        mtableWF m = true →
        mentionsPath m q = false →
        (∀ i, 0 < i → i < q.length → writesLeaf m (q.take i) = false) →
        navigate (ConfigTree.node (mergeList cs m meta)) q =
          navigate (ConfigTree.node cs) q) ∧
    navigate (ConfigTree.node (((⟨[]⟩ : YTConfig).update
        [("x", MVal.table [("y", MVal.scalar (Value.vint 1))])] (some exMeta)).update
        [("x", MVal.table [("z", MVal.scalar (Value.vint 2))])] (some exMeta)).config_root)
      ["x", "y"] = some (ConfigTree.leaf (Value.vint 1) exMeta) ∧
    navigate (ConfigTree.node (((⟨[]⟩ : YTConfig).update
        [("x", MVal.table [("y", MVal.scalar (Value.vint 1))])] (some exMeta)).update
        [("x", MVal.table [("z", MVal.scalar (Value.vint 2))])] (some exMeta)).config_root)
      ["x", "z"] = some (ConfigTree.leaf (Value.vint 2) exMeta) := by
  refine ⟨fun cs m meta q hWF hm hw => navigate_mergeList_frame q m cs meta hWF hm hw,
    ?_, ?_⟩
  · simp [YTConfig.update, mergeList, setVal, getVal, childrenOrEmpty, navigate]
  · simp [YTConfig.update, mergeList, setVal, getVal, childrenOrEmpty, navigate]

/-- C5 witness: merging `{"x": 1}` over a store holding a Leaf at `["y"]`
leaves the untouched path `["y"]` exactly as it was. -/
theorem c5_merge_frame_witness :
    navigate (ConfigTree.node (mergeList [("y", ConfigTree.leaf (Value.vint 7) exMeta)]
        [("x", MVal.scalar (Value.vint 1))] exMeta)) ["y"] =
      navigate (ConfigTree.node [("y", ConfigTree.leaf (Value.vint 7) exMeta)]) ["y"] :=
  c5_merge_frame.1 [("y", ConfigTree.leaf (Value.vint 7) exMeta)]
    [("x", MVal.scalar (Value.vint 1))] exMeta ["y"]
    (by simp [mtableWF, mvalWF])
    (by simp [mentionsPath, getVal])
    (by intro i h1 h2; simp at h2; omega)

/-- C6 (counterexample): `update` called without metadata attaches the empty
metadata mapping, which has no `source` entry, to the Leaf it creates — so
not every write path of `YTConfig` tags Leaves with a source. -/
theorem c6_counterexample :
    navigate (ConfigTree.node ((YTConfig.update ⟨[]⟩
        [("a", MVal.scalar (Value.vint 1))] none).config_root)) ["a"] =
      some (ConfigTree.leaf (Value.vint 1) ([] : Metadata)) ∧
    getVal "source" ([] : Metadata) = none := by
  constructor
  · simp [YTConfig.update, mergeList, setVal, navigate, getVal]
  · rfl

/-- C6 (amended): `set` without metadata attaches `{"source": "runtime"}`
and `read` attaches `{"source": "file: <name>"}` to every Leaf they write,
but `update` attaches exactly the caller-supplied metadata and defaults to
the empty mapping — carrying no `source` entry — when none is given. -/
theorem c6_source_metadata (c : YTConfig) (sec : String) (keys : List String)
    (v : Value) :
    (∀ c₂ : YTConfig, c.set sec keys v none = Except.ok c₂ →
        navigate (ConfigTree.node c₂.config_root) (sec :: keys) =
          some (ConfigTree.leaf v [("source", "runtime")])) ∧
    (∀ (fname k : String) (fs : String → Option (List (String × MVal))),
        fs fname = some [(k, MVal.scalar v)] →
        getVal k ((c.read fs [fname]).1.config_root) =
          some (ConfigTree.leaf v [("source", "file: " ++ fname)])) ∧
    (∀ p : List String, p ≠ [] →
        navigate (ConfigTree.node ((c.update (pathMapping p v) none).config_root)) p =
          some (ConfigTree.leaf v ([] : Metadata))) := by
  refine ⟨?_, ?_, ?_⟩
  · intro c₂ h
    unfold YTConfig.set at h
    cases hu : upsertList c.config_root (sec :: keys) v [("source", "runtime")] with
    | error e => rw [show (none : Option Metadata).getD [("source", "runtime")] =
        [("source", "runtime")] from rfl, hu] at h; simp [Except.map] at h
    | ok cs₂ =>
      rw [show (none : Option Metadata).getD [("source", "runtime")] =
        [("source", "runtime")] from rfl, hu] at h
      simp only [Except.map] at h
      injection h with h
      subst h
      exact navigate_upsertList (sec :: keys) c.config_root cs₂ v
        [("source", "runtime")] hu
  · intro fname k fs hf
    show getVal k ((YTConfig.read c fs [fname]).1.config_root) = _
    simp only [YTConfig.read, hf]
    exact getVal_mergeList_scalar _ _ (by simp [mtableWF, mvalWF]) (by simp [getVal])
  · intro p hp
    exact navigate_mergeList_pathMapping p c.config_root v [] hp

/-- C6 witness: on the empty store, `set "a" 3` without metadata succeeds
and the created Leaf carries `{"source": "runtime"}`. -/
theorem c6_source_metadata_witness :
    navigate (ConfigTree.node
        (⟨[("a", ConfigTree.leaf (Value.vint 3) [("source", "runtime")])]⟩ :
          YTConfig).config_root) ["a"] =
      some (ConfigTree.leaf (Value.vint 3) [("source", "runtime")]) :=
  (c6_source_metadata ⟨[]⟩ "a" [] (Value.vint 3)).1
    ⟨[("a", ConfigTree.leaf (Value.vint 3) [("source", "runtime")])]⟩
    (by simp [YTConfig.set, upsertList, setVal, Except.map])

/-- C7: `read` applies its sources in caller-given order — for each existing
file its parsed mapping is merged with metadata `{"source": "file: <name>"}`,
later files overriding earlier ones at coincident paths — and returns
exactly the list of file names actually read, in order. -/
theorem c7_read_order :
    (∀ (c : YTConfig) (fs : String → Option (List (String × MVal)))
        (files : List String),
        (c.read fs files).2 = files.filter (fun f => (fs f).isSome) ∧
        (c.read fs files).1 = files.foldl
          (fun acc f =>
            match fs f with
            | none => acc
            | some d => acc.update d (some [("source", "file: " ++ f)])) c) ∧
    (∀ (c : YTConfig) (f₁ f₂ k : String) (v₁ v₂ : Value)
        (fs : String → Option (List (String × MVal))),
        fs f₁ = some [(k, MVal.scalar v₁)] → fs f₂ = some [(k, MVal.scalar v₂)] →
        getVal k ((c.read fs [f₁, f₂]).1.config_root) =
          some (ConfigTree.leaf v₂ [("source", "file: " ++ f₂)]) ∧
        (c.read fs [f₁, f₂]).2 = [f₁, f₂]) := by
  refine ⟨fun c fs files => read_spec files c fs, ?_⟩
  intro c f₁ f₂ k v₁ v₂ fs h₁ h₂
  constructor
  · show getVal k ((YTConfig.read c fs [f₁, f₂]).1.config_root) = _
    simp only [YTConfig.read, h₁, h₂]
    exact getVal_mergeList_scalar _ _ (by simp [mtableWF, mvalWF]) (by simp [getVal])
  · simp [YTConfig.read, h₁, h₂]

/-- C7 witness: with two existing files writing the same key, the later file
wins and both names are reported, in order. -/
theorem c7_read_order_witness :
    getVal "k" (((⟨[]⟩ : YTConfig).read
        (fun f => if f = "f1" then some [("k", MVal.scalar (Value.vint 1))]
          else if f = "f2" then some [("k", MVal.scalar (Value.vint 2))]
          else none) ["f1", "f2"]).1.config_root) =
      some (ConfigTree.leaf (Value.vint 2) [("source", "file: " ++ "f2")]) ∧
    ((⟨[]⟩ : YTConfig).read
        (fun f => if f = "f1" then some [("k", MVal.scalar (Value.vint 1))]
          else if f = "f2" then some [("k", MVal.scalar (Value.vint 2))]
          else none) ["f1", "f2"]).2 = ["f1", "f2"] :=
  c7_read_order.2 ⟨[]⟩ "f1" "f2" "k" (Value.vint 1) (Value.vint 2) _
    (by simp) (by simp)

/-- C8: for every store and non-empty path that resolves to an existing
child, `remove` succeeds; afterwards the containment test on that path is
false and a second `remove` of the same path fails `NotFound`. -/
theorem c8_remove_idempotent_check (c : YTConfig) (path : List String)
    (hne : path ≠ []) (hcont : c.contains path = true) :
    ∃ c₂ : YTConfig, c.remove path = Except.ok c₂ ∧
      c₂.contains path = false ∧
      c₂.remove path = Except.error ConfigError.notFound := by
  have hnav : ∃ t, navigate (ConfigTree.node c.config_root) path = some t := by
    unfold YTConfig.contains at hcont
    cases hn : navigate (ConfigTree.node c.config_root) path with
    | none => rw [hn] at hcont; simp at hcont
    | some t => exact ⟨t, rfl⟩
  obtain ⟨t, ht⟩ := hnav
  obtain ⟨cs₂, h₂⟩ := popList_ok_of_navigate path c.config_root t hne ht
  have hnone := navigate_popList_none path c.config_root cs₂ h₂
  refine ⟨⟨cs₂⟩, ?_, ?_, ?_⟩
  · show (popList c.config_root path).map _ = _
    rw [h₂]
    rfl
  · show (navigate (ConfigTree.node cs₂) path).isSome = false
    rw [hnone]
    rfl
  · show (popList cs₂ path).map _ = _
    rw [popList_err_of_navigate_none path cs₂ hne hnone]
    rfl

/-- C8 witness: removing the Leaf at `["a"]` from a store that has it. -/
theorem c8_remove_idempotent_check_witness :
    ∃ c₂ : YTConfig,
      (⟨[("a", ConfigTree.leaf (Value.vint 1) exMeta)]⟩ : YTConfig).remove ["a"] =
        Except.ok c₂ ∧
      c₂.contains ["a"] = false ∧
      c₂.remove ["a"] = Except.error ConfigError.notFound :=
  c8_remove_idempotent_check ⟨[("a", ConfigTree.leaf (Value.vint 1) exMeta)]⟩ ["a"]
    (by simp) (by simp [YTConfig.contains, navigate, getVal])

/-- C9: `remove_section` never raises: it returns `true` and removes the
section when it is present, and returns `false` leaving the store unchanged
when it is absent — the `NotFound` failure of `remove_child` is converted
into the boolean result. -/
theorem c9_remove_section_total (c : YTConfig) (sec : String) :
    ∃ r : YTConfig × Bool, c.remove_section sec = Except.ok r ∧
      r.2 = c.has_section sec ∧
      r.1.config_root =
        (if c.has_section sec then delVal sec c.config_root else c.config_root) ∧
      r.1.has_section sec = false := by
  by_cases h : c.has_section sec
  · refine ⟨(⟨delVal sec c.config_root⟩, true), ?_, by simp [h], by simp [h], ?_⟩
    · unfold YTConfig.remove_section removeChild
      rw [if_pos h, if_pos (show (getVal sec c.config_root).isSome = true from h)]
      rfl
    · show (getVal sec (delVal sec c.config_root)).isSome = false
      rw [getVal_delVal_self]
      rfl
  · refine ⟨(c, false), ?_, by simp [h], by simp [h], ?_⟩
    · unfold YTConfig.remove_section
      rw [if_neg h]
    · show c.has_section sec = false
      simpa using h

/-- C10: `get_most_specific` suppresses the `NotFound` (`KeyError`) failure
exactly when the `fallback` keyword was passed, regardless of its value:
when no prefix of the path resolves to a Leaf it returns the supplied
fallback value (including an explicitly passed `None`) if the keyword is
present and re-raises the error otherwise; when resolution succeeds the
resolved value is returned whatever the fallback. -/
theorem c10_fallback_keyword (c : YTConfig) (sec : String) (keys : List String) :
    (∀ (v : Value) (m : Metadata),
        getDeepestLeaf (ConfigTree.node c.config_root) (sec :: keys) = some (v, m) →
        ∀ fb : Option Value, c.get_most_specific sec keys fb = Except.ok v) ∧
    (getDeepestLeaf (ConfigTree.node c.config_root) (sec :: keys) = none →
        (∀ x : Value, c.get_most_specific sec keys (some x) = Except.ok x) ∧
        c.get_most_specific sec keys none = Except.error ConfigError.notFound) := by
  constructor
  · intro v m h fb
    unfold YTConfig.get_most_specific
    rw [h]
  · intro h
    unfold YTConfig.get_most_specific
    rw [h]
    exact ⟨fun x => rfl, rfl⟩

/-- C10 witness: on the empty store, resolution of `["z"]` fails; with
`fallback=None` explicitly passed the call returns `None`, and without the
keyword it raises `NotFound`. -/
theorem c10_fallback_keyword_witness :
    (⟨[]⟩ : YTConfig).get_most_specific "z" [] (some Value.vnone) =
        Except.ok Value.vnone ∧
    (⟨[]⟩ : YTConfig).get_most_specific "z" [] none =
        Except.error ConfigError.notFound := by
  have h := (c10_fallback_keyword ⟨[]⟩ "z" []).2
    (by simp [getDeepestLeaf, navigate, getVal])
  exact ⟨h.1 Value.vnone, h.2⟩
